import Mathlib

/-!
Shallow embedding of the monitor-reconciliation service (`src/main.py`).

The source is a single Python file: a polling loop that
* fetches a backend status document and derives a name → health map
  (`backend_areas` dict comprehension, lines 97-102),
* when `sorted(uptime_monitors.keys()) != sorted(backend_areas.keys())`
  or `len(backend_areas) == 0`, runs a reconciliation pass against the
  uptime-kuma registry (lines 105-167),
* every cycle, concurrently pings each monitor's push endpoint
  (`ping_monitors`, lines 43-65).

Python dicts are modelled as association lists with insert-or-update
(`upsert`) semantics, which preserves first-insertion position and
last-written value, exactly as CPython dicts do.  The external registry
(an uptime-kuma server, specified only at its interface boundary in the
spec) is modelled as an explicit `Registry` state acted on by the API
calls the script performs.  Exceptions are modelled with `Except` /
`Option`; the thread-pool `as_completed` completion order of the ping
fan-out is an explicit parameter.
-/

namespace Ursaring

/-! ### Association lists with Python-dict semantics -/

/-- Keys of an association list, in insertion order (Python `dict.keys()`). -/
def keysOf {β : Type} (l : List (String × β)) : List String :=
  l.map Prod.fst

/-- Python `d[k] = v`: update in place if the key exists, else append. -/
def upsert {β : Type} : List (String × β) → String → β → List (String × β)
  | [], n, v => [(n, v)]
  | (k, w) :: t, n, v =>
    if k = n then (k, v) :: t else (k, w) :: upsert t n v

/-- Python `d[k]` / `d.get(k)`: value at a key, if present. -/
def lookupA {β : Type} : List (String × β) → String → Option β
  | [], _ => none
  | (k, w) :: t, n => if k = n then some w else lookupA t n

/-- Python `del d[k]`: drop every binding of the key. -/
def removeKey {β : Type} : List (String × β) → String → List (String × β)
  | [], _ => []
  | (k, w) :: t, n =>
    if k = n then removeKey t n else (k, w) :: removeKey t n

/-! ### The sort key (`polish_sort_key`, lines 72-74) -/

/-- The fixed extended-Latin alphabet string of `polish_sort_key`. -/
def polish_alphabet : List Char :=
  "AĄBCĆDEĘFGHIJKLŁMNŃOÓPRSŚTUWYZŹŻaąbcćdeęfghijklłmnńoóprsśtuwyzźż".data

/-- `polish_sort_key(word)`: alphabet position for characters of the fixed
alphabet, raw code point otherwise (lines 72-74). -/
def polish_sort_key (w : String) : List Nat :=
  w.data.map fun c =>
    if c ∈ polish_alphabet then polish_alphabet.indexOf c else c.toNat

/-- Lexicographic `≤` on rank sequences: how Python compares two
`polish_sort_key` values (i.e. two equal-type lists of ints). -/
def keyLe : List Nat → List Nat → Bool
  | [], _ => true
  | _ :: _, [] => false
  | a :: as, b :: bs =>
    if a < b then true else if b < a then false else keyLe as bs

/-! ### Python `str.title()` over the characters this system uses -/

/-- Lowercase accented letters of the alphabet in play. -/
def polishLower : List Char := "ąćęłńóśźż".data

/-- Uppercase accented letters, aligned with `polishLower`. -/
def polishUpper : List Char := "ĄĆĘŁŃÓŚŹŻ".data

/-- A character is cased (for `str.title()`): ASCII letter or one of the
accented letters. -/
def isCasedChar (c : Char) : Bool :=
  c.isAlpha || polishLower.contains c || polishUpper.contains c

/-- Uppercase map over the modelled character set. -/
def upChar (c : Char) : Char :=
  match polishLower.indexOf? c with
  | some i => polishUpper.getD i c
  | none => c.toUpper

/-- Lowercase map over the modelled character set. -/
def loChar (c : Char) : Char :=
  match polishUpper.indexOf? c with
  | some i => polishLower.getD i c
  | none => c.toLower

/-- `str.title()` worker: the boolean says whether the previous character
was cased. -/
def titleGo : Bool → List Char → List Char
  | _, [] => []
  | prev, c :: t =>
    if isCasedChar c then
      (if prev then loChar c else upChar c) :: titleGo true t
    else
      c :: titleGo false t

/-- Python `name.title()` (used when creating a monitor, line 14). -/
def title (s : String) : String :=
  ⟨titleGo false s.data⟩

/-! ### Data model -/

/-- A worker-manager report inside a backend area. -/
structure WM where
  active_workers : Nat
  expected_workers : Nat
deriving DecidableEq

/-- One named area of the backend response. -/
structure Area where
  name : String
  worker_managers : List WM
deriving DecidableEq

/-- The JSON document returned by the backend status endpoint. -/
structure BackendResp where
  areas : List Area
deriving DecidableEq

/-- The local cache record for one monitor (lines 23-27 and 118-122). -/
structure MonitorRec where
  id : Nat
  name : String
  pushToken : Nat
deriving DecidableEq

/-- The local monitor cache `uptime_monitors`: a dict name → record. -/
abbrev Cache := List (String × MonitorRec)

/-- A monitor as stored by the registry (uptime-kuma). -/
structure Monitor where
  id : Nat
  name : String
  pushToken : Nat
  interval : Nat
  tags : List Nat
deriving DecidableEq

/-- A status-page entry (`id`/`name`/`sendUrl`, lines 154-158). -/
structure Entry where
  id : Nat
  name : String
  sendUrl : Nat
deriving DecidableEq

/-- One group of the status page (`publicGroupList` row). -/
structure PGroup where
  name : String
  monitorList : List Entry
deriving DecidableEq

/-- The status-page document.  `incident` and `maintenanceList` are the
transient fields the script deletes before saving; `none` models the
field being absent from the dict. -/
structure PageDoc where
  incident : Option String
  maintenanceList : Option String
  publicGroupList : List PGroup
  pageTitle : String
deriving DecidableEq

/-- The external registry (uptime-kuma server) state.  `lastSaved`
records the document most recently passed to `save_status_page`;
`sessionOk` models whether login succeeds. -/
structure Registry where
  monitors : List Monitor
  tags : List (String × Nat)
  page : PageDoc
  lastSaved : Option PageDoc
  sessionOk : Bool
  nextId : Nat
  nextToken : Nat
deriving DecidableEq

/-- The configuration values the core loop reads from `config.toml`. -/
structure Config where
  url : String
  tag_name : String
  group : String
  slug : String
  threshold : ℚ
  max_workers : Nat
  timeout : Nat
deriving DecidableEq

/-! ### Registry API calls (external collaborator, spec section 6) -/

/-- `api.add_monitor(type=PUSH, name=..., interval=...)`: create a
monitor with a fresh id and push token, returning the new monitor id. -/
def api_add_monitor (r : Registry) (name : String) (interval : Nat) :
    Registry × Nat :=
  let m : Monitor :=
    ⟨r.nextId, name, r.nextToken, interval, []⟩
  ({ r with
      monitors := r.monitors ++ [m]
      nextId := r.nextId + 1
      nextToken := r.nextToken + 1 },
   r.nextId)

/-- `api.add_monitor_tag(tag_id=..., monitor_id=...)`. -/
def api_add_monitor_tag (r : Registry) (tagId mid : Nat) : Registry :=
  { r with
      monitors := r.monitors.map fun m =>
        if m.id = mid then { m with tags := m.tags ++ [tagId] } else m }

/-- `api.get_monitor(id)`. -/
def api_get_monitor (r : Registry) (mid : Nat) : Option Monitor :=
  r.monitors.find? fun m => decide (m.id = mid)

/-- `api.delete_monitor(id)` (via `delete_monitor`, lines 39-40). -/
def api_delete_monitor (r : Registry) (mid : Nat) : Registry :=
  { r with monitors := r.monitors.filter fun m => decide (m.id ≠ mid) }

/-- `fetch_tags` (lines 30-36): the registry's tag dict name → id. -/
def fetch_tags (r : Registry) : List (String × Nat) :=
  r.tags

/-! ### `add_monitor` (lines 11-27) -/

/-- `add_monitor(api, name, tag_id)`: create under the title-cased name,
attach the tag, re-fetch to obtain the push token, and return the cache
record.  The `Except` models an exception from the API. -/
def add_monitor (r : Registry) (name : String) (tag_id : Nat) :
    Registry × Except String MonitorRec :=
  let p := api_add_monitor r (title name) 70
  let r2 := api_add_monitor_tag p.1 tag_id p.2
  match api_get_monitor r2 p.2 with
  | some m => (r2, .ok ⟨m.id, m.name, m.pushToken⟩)
  | none => (r2, .error "monitor not found")

/-! ### The reconciliation pass (lines 108-165) -/

/-- Rebuild the cache from the registry's tagged monitors
(lines 115-122).  Entries are upserted in registry list order. -/
def rebuild (tid : Nat) (ms : List Monitor) (c : Cache) : Cache :=
  ms.foldl
    (fun acc m =>
      if tid ∈ m.tags then
        upsert acc m.name ⟨m.id, m.name, m.pushToken⟩
      else acc)
    c

/-- Result of the create-missing loop. -/
structure CreateOut where
  registry : Registry
  cache : Cache
  created : List String
  err : Option String
deriving DecidableEq

/-- The create-missing loop (lines 124-129): for each desired area name
absent from the cache, create a monitor and insert the returned record
under the registry-returned name. -/
def createLoop (tid : Nat) : Registry → Cache → List String → CreateOut
  | reg, c, [] => ⟨reg, c, [], none⟩
  | reg, c, d :: ds =>
    if d ∈ keysOf c then createLoop tid reg c ds
    else
      match add_monitor reg d tid with
      | (reg2, .ok rec) =>
        let out := createLoop tid reg2 (upsert c rec.name rec) ds
        { out with created := d :: out.created }
      | (reg2, .error e) => ⟨reg2, c, [d], some e⟩

/-- Result of the remove-old loop. -/
structure RemoveOut where
  registry : Registry
  cache : Cache
  deletedIds : List Nat
deriving DecidableEq

/-- The remove-old loop (lines 131-141): delete every cached monitor
whose name is no longer desired, then drop those cache entries. -/
def removePhase (reg : Registry) (c : Cache) (desired : List String) :
    RemoveOut :=
  let rem := c.filter fun p => decide (p.1 ∉ desired)
  ⟨rem.foldl (fun r p => api_delete_monitor r p.2.id) reg,
   (rem.map Prod.fst).foldl removeKey c,
   rem.map fun p => p.2.id⟩

/-- Status-page entries for the cached monitors (lines 154-158). -/
def entriesOf (c : Cache) : List Entry :=
  c.map fun p => ⟨p.2.id, p.2.name, 0⟩

/-- The ordering the page entries are sorted by (line 159). -/
def entryLE (a b : Entry) : Prop :=
  keyLe (polish_sort_key a.name) (polish_sort_key b.name) = true

instance : DecidableRel entryLE := fun a b => by
  unfold entryLE; infer_instance

/-- Python's stable `sorted(..., key=polish_sort_key)` on entries. -/
def sortEntries (l : List Entry) : List Entry :=
  l.insertionSort entryLE

/-- The status-page update (lines 143-162): fetch the page, `del` the
`incident` and `maintenanceList` fields (KeyError if absent), replace
the configured group's `monitorList`, and save the document back. -/
def statusPageStep (cfg : Config) (reg : Registry) (c : Cache) :
    Except String Registry :=
  let page := reg.page
  match page.incident, page.maintenanceList with
  | some _, some _ =>
    let groups := page.publicGroupList.map fun row =>
      if row.name = cfg.group then
        { row with monitorList := sortEntries (entriesOf c) }
      else row
    let doc : PageDoc := ⟨none, none, groups, page.pageTitle⟩
    .ok { reg with
            page := { page with publicGroupList := groups }
            lastSaved := some doc }
  | _, _ => .error "KeyError: status page field"

/-- Outcome of one reconciliation pass.  `err` is the exception caught
by the `except` at line 166, if any; registry and cache carry whatever
partial mutations committed before it was raised. -/
structure PassOut where
  registry : Registry
  cache : Cache
  created : List String
  deletedIds : List Nat
  saved : Bool
  err : Option String
deriving DecidableEq

/-- The body of a reconciliation pass once the session is open and the
tag id is known: cache rebuild, create-missing, remove-old, status-page
update (lines 114-165). -/
def reconcileBody (cfg : Config) (reg : Registry) (c : Cache)
    (desired : List String) (tid : Nat) : PassOut :=
  let c1 := rebuild tid reg.monitors c
  let co := createLoop tid reg c1 desired
  match co.err with
  | some e => ⟨co.registry, co.cache, co.created, [], false, some e⟩
  | none =>
    let ro := removePhase co.registry co.cache desired
    match statusPageStep cfg ro.registry ro.cache with
    | .error e =>
      ⟨ro.registry, ro.cache, co.created, ro.deletedIds, false, some e⟩
    | .ok reg4 =>
      ⟨reg4, ro.cache, co.created, ro.deletedIds, true, none⟩

/-- One reconciliation pass (the `try` block, lines 108-165): login,
tag lookup, then the body. -/
def reconcile (cfg : Config) (reg : Registry) (c : Cache)
    (desired : List String) : PassOut :=
  if reg.sessionOk = false then ⟨reg, c, [], [], false, some "login failed"⟩
  else
    match lookupA (fetch_tags reg) cfg.tag_name with
    | none => ⟨reg, c, [], [], false, some "KeyError: tag"⟩
    | some tid => reconcileBody cfg reg c desired tid

/-! ### Deriving the area-health map (lines 97-102) -/

/-- The per-report health boolean:
`active_workers / expected_workers >= threshold` with exact (rational)
division. -/
def healthOf (th : ℚ) (wm : WM) : Bool :=
  decide ((wm.active_workers : ℚ) / (wm.expected_workers : ℚ) ≥ th)

/-- Worker of `deriveAreas`, carrying the dict built so far.  Each area
evaluates `area.worker_managers[0]` (IndexError on an empty list) both
in the filter and in the value expression. -/
def deriveGo (th : ℚ) (acc : List (String × Bool)) :
    List Area → Except String (List (String × Bool))
  | [] => .ok acc
  | a :: rest =>
    match a.worker_managers with
    | [] => .error "IndexError: list index out of range"
    | wm :: _ =>
      deriveGo th
        (if wm.expected_workers ≠ 0 then upsert acc a.name (healthOf th wm)
         else acc)
        rest

/-- The `backend_areas` dict comprehension (lines 97-102). -/
def deriveAreas (th : ℚ) (areas : List Area) :
    Except String (List (String × Bool)) :=
  deriveGo th [] areas

/-! ### The ping fan-out (`ping_monitors`, lines 43-65) -/

/-- What `ping_status` observes of a successful `requests.get`. -/
structure PingResp where
  url : String
deriving DecidableEq

/-- URL preparation (lines 46-51): `uptime_data[area]` raises KeyError
when a desired area is missing from the cache. -/
def prepGo (base : String) (uptime : Cache) (acc : List String) :
    List (String × Bool) → Except String (List String)
  | [] => .ok acc
  | (area, status) :: t =>
    match lookupA uptime area with
    | none => .error ("KeyError: " ++ area)
    | some rec =>
      prepGo base uptime
        (acc ++ [base ++ "/api/push/" ++ toString rec.pushToken ++
                 "?status=" ++ (if status then "up" else "down")])
        t

/-- The `as_completed` collection loop (lines 61-65).  The first
argument is the current value of the local variable `res` (`none` while
it is still unbound); results arrive in completion order.  A failing
future whose handler runs while `res` is unbound raises; otherwise the
handler logs `res.url` — the URL of the *previous successful* response. -/
def collectPings :
    Option PingResp → List (Except String PingResp) →
    Except String (List String)
  | _, [] => .ok []
  | _, .ok resp :: t => collectPings (some resp) t
  | none, .error _ :: _ => .error "NameError: name res is not defined"
  | some r, .error e :: t =>
    match collectPings (some r) t with
    | .error e2 => .error e2
    | .ok logs =>
      .ok (("Ping of URL " ++ r.url ++ " failed with " ++ e) :: logs)

/-- `ping_monitors(uptime_data, backend_data)`: prepare one URL per
desired area, dispatch all of them, and collect results in completion
order.  `oracle` gives each request's outcome; `ord` lists the indices
of the futures in `as_completed` order. -/
def ping_monitors (base : String) (uptime : Cache)
    (areas : List (String × Bool))
    (oracle : String → Except String PingResp) (ord : List Nat) :
    Except String (List String) :=
  match prepGo base uptime [] areas with
  | .error e => .error e
  | .ok urls =>
    let futures := urls.map oracle
    let completed := ord.filterMap fun i => futures.get? i
    collectPings none completed

/-! ### The outer loop (lines 87-173) -/

/-- The mutable state the loop carries across cycles. -/
structure Sys where
  registry : Registry
  cache : Cache
deriving DecidableEq

/-- What one cycle did: the pass's registry calls and the ping logs. -/
structure CycleTrace where
  created : List String
  deletedIds : List Nat
  saved : Bool
  passRan : Bool
  passErr : Option String
  pingLogs : List String
deriving DecidableEq

/-- The trace of a cycle in which no reconciliation pass ran. -/
def emptyTrace : CycleTrace :=
  ⟨[], [], false, false, none, []⟩

/-- Outcome of one iteration of the `while True` loop. -/
inductive CycleResult
  | backoff (st : Sys)
  | crashed (e : String)
  | ok (st : Sys) (tr : CycleTrace)
deriving DecidableEq

/-- Python lexicographic string order (code-point ranks), used by
`sorted(...)` on the two key lists at line 105. -/
def codeKey (s : String) : List Nat :=
  s.data.map Char.toNat

/-- Python `a <= b` on strings. -/
def strLE (a b : String) : Prop :=
  keyLe (codeKey a) (codeKey b) = true

instance : DecidableRel strLE := fun a b => by
  unfold strLE; infer_instance

/-- Python `sorted(...)` on a list of strings. -/
def pySorted (l : List String) : List String :=
  l.insertionSort strLE

/-- The change check and conditional pass (lines 105 and 108-167): run
a reconciliation pass exactly when
`sorted(cache keys) != sorted(desired keys) or len(desired) == 0`.
An exception inside the pass is caught (line 166); the partially
mutated state is kept. -/
def reconcileIfTriggered (cfg : Config) (st : Sys)
    (areas : List (String × Bool)) : Sys × CycleTrace :=
  if pySorted (keysOf st.cache) ≠ pySorted (keysOf areas) ∨
     areas.length = 0 then
    let out := reconcile cfg st.registry st.cache (keysOf areas)
    (⟨out.registry, out.cache⟩,
     ⟨out.created, out.deletedIds, out.saved, true, out.err, []⟩)
  else (st, emptyTrace)

/-- One iteration of the outer loop.  A fetch failure sleeps and
retries (`continue`, lines 89-94).  An exception in the `backend_areas`
comprehension or in `ping_monitors` is caught nowhere and terminates
the process (`crashed`). -/
def cycle (cfg : Config) (st : Sys) (fetched : Except String BackendResp)
    (oracle : String → Except String PingResp) (ord : List Nat) :
    CycleResult :=
  match fetched with
  | .error _ => .backoff st
  | .ok resp =>
    match deriveAreas cfg.threshold resp.areas with
    | .error e => .crashed e
    | .ok areas =>
      let p := reconcileIfTriggered cfg st areas
      match ping_monitors cfg.url p.1.cache areas oracle ord with
      | .error e => .crashed e
      | .ok logs => .ok p.1 { p.2 with pingLogs := logs }

/-! ### Derived well-formedness predicates -/

/-- The registry issues monitor ids below `nextId`. -/
def RegistryWF (r : Registry) : Prop :=
  ∀ m ∈ r.monitors, m.id < r.nextId

/-- Names of the registry monitors carrying a given tag. -/
def taggedNames (tid : Nat) (ms : List Monitor) : List String :=
  (ms.filter fun m => decide (tid ∈ m.tags)).map Monitor.name

/-- The monitors carrying the configured tag have pairwise distinct
names (checked only when the tag exists). -/
def tagNodupOk (cfg : Config) (r : Registry) : Bool :=
  match lookupA (fetch_tags r) cfg.tag_name with
  | none => true
  | some tid => decide (taggedNames tid r.monitors).Nodup

/-- Projection used to run two consecutive cycles in sequence. -/
def runOk : CycleResult → Option (Sys × CycleTrace)
  | .ok st tr => some (st, tr)
  | _ => none

/-- `true` exactly on a terminating (`crashed`) cycle outcome. -/
def isCrashed : CycleResult → Bool
  | .crashed _ => true
  | _ => false

/-- `true` on `Except.ok`. -/
def isOkE {α : Type} : Except String α → Bool
  | .ok _ => true
  | .error _ => false

/-- The registry state after a successful `add_monitor` call. -/
def afterAdd (r : Registry) (name : String) (tid : Nat) : Registry :=
  { r with
      monitors :=
        r.monitors ++ [⟨r.nextId, title name, r.nextToken, 70, [tid]⟩]
      nextId := r.nextId + 1
      nextToken := r.nextToken + 1 }

/-! ### Concrete fixtures used by witnesses and counterexamples -/

/-- A concrete configuration: tag `"t"`, display group `"g"`. -/
def cfgW : Config :=
  ⟨"http://k", "t", "g", "s", (1 : ℚ) / 2, 4, 5⟩

/-- A healthy, empty registry holding the tag `"t"` (id 1) and a status
page with one group `"g"` and both transient fields present. -/
def regW : Registry :=
  ⟨[], [("t", 1)], ⟨some "i", some "m", [⟨"g", []⟩], "p"⟩, none, true, 0, 0⟩

/-- A ping oracle that succeeds on every URL. -/
def okOracle : String → Except String PingResp :=
  fun u => .ok ⟨u⟩

/-- A backend response with no areas at all. -/
def respEmpty : BackendResp := ⟨[]⟩

/-- Five cached monitors a1..a5 with push tokens 1..5. -/
def cacheW5 : Cache :=
  [("a1", ⟨1, "a1", 1⟩), ("a2", ⟨2, "a2", 2⟩), ("a3", ⟨3, "a3", 3⟩),
   ("a4", ⟨4, "a4", 4⟩), ("a5", ⟨5, "a5", 5⟩)]

/-- All five areas healthy. -/
def areasW5 : List (String × Bool) :=
  [("a1", true), ("a2", true), ("a3", true), ("a4", true), ("a5", true)]

/-- A ping oracle under which the pings for tokens 2 and 4 time out. -/
def timeoutOracle : String → Except String PingResp := fun u =>
  if u = "http://k/api/push/2?status=up" then .error "timeout"
  else if u = "http://k/api/push/4?status=up" then .error "timeout"
  else .ok ⟨u⟩

/-! ### Association-list lemmas -/

theorem mem_keysOf_iff {β : Type} {l : List (String × β)} {n : String} :
    n ∈ keysOf l ↔ ∃ v, (n, v) ∈ l := by
  constructor
  · intro h
    rcases List.mem_map.mp h with ⟨⟨k, w⟩, hp, he⟩
    cases he
    exact ⟨w, hp⟩
  · rintro ⟨v, hv⟩
    exact List.mem_map.mpr ⟨(n, v), hv, rfl⟩

theorem keysOf_upsert {β : Type} (l : List (String × β)) (n : String)
    (v : β) (m : String) :
    m ∈ keysOf (upsert l n v) ↔ m ∈ keysOf l ∨ m = n := by
  induction l with
  | nil => simp [upsert, keysOf]
  | cons p t ih =>
    obtain ⟨k, w⟩ := p
    by_cases h : k = n
    · subst h
      simp [upsert, keysOf]
      tauto
    · simp only [upsert, if_neg h]
      simp only [keysOf, List.map_cons, List.mem_cons] at ih ⊢
      rw [ih]
      tauto

theorem lookupA_upsert_self {β : Type} (l : List (String × β)) (n : String)
    (v : β) : lookupA (upsert l n v) n = some v := by
  induction l with
  | nil => simp [upsert, lookupA]
  | cons p t ih =>
    obtain ⟨k, w⟩ := p
    by_cases h : k = n
    · subst h; simp [upsert, lookupA]
    · simp [upsert, lookupA, h, ih]

theorem lookupA_upsert_ne {β : Type} (l : List (String × β))
    {n m : String} (v : β) (h : m ≠ n) :
    lookupA (upsert l n v) m = lookupA l m := by
  have hnm : ¬n = m := fun he => h he.symm
  induction l with
  | nil => simp [upsert, lookupA, hnm]
  | cons p t ih =>
    obtain ⟨k, w⟩ := p
    by_cases hk : k = n
    · subst hk
      simp [upsert, lookupA, hnm]
    · by_cases hk2 : k = m
      · subst hk2; simp [upsert, lookupA, hk]
      · simp [upsert, lookupA, hk, hk2, ih]

theorem lookupA_mem {β : Type} {l : List (String × β)} {n : String}
    {v : β} (h : lookupA l n = some v) : (n, v) ∈ l := by
  induction l with
  | nil => simp [lookupA] at h
  | cons p t ih =>
    obtain ⟨k, w⟩ := p
    by_cases hk : k = n
    · subst hk
      simp [lookupA] at h
      subst h
      exact List.mem_cons_self _ _
    · simp [lookupA, hk] at h
      exact List.mem_cons_of_mem _ (ih h)

theorem lookupA_eq_none {β : Type} {l : List (String × β)} {n : String} :
    lookupA l n = none ↔ n ∉ keysOf l := by
  induction l with
  | nil => simp [lookupA, keysOf]
  | cons p t ih =>
    obtain ⟨k, w⟩ := p
    by_cases hk : k = n
    · subst hk; simp [lookupA, keysOf]
    · have hnk : ¬n = k := fun he => hk he.symm
      simp [lookupA, keysOf, hk, ih, hnk]

theorem mem_upsert_elim {β : Type} {l : List (String × β)} {n : String}
    {v : β} {p : String × β} (h : p ∈ upsert l n v) :
    p ∈ l ∨ p = (n, v) := by
  induction l with
  | nil => simpa [upsert] using h
  | cons q t ih =>
    obtain ⟨k, w⟩ := q
    by_cases hk : k = n
    · subst hk
      simp only [upsert, if_pos rfl] at h
      rcases List.mem_cons.mp h with h | h
      · exact Or.inr (by simpa using h)
      · exact Or.inl (List.mem_cons_of_mem _ h)
    · simp only [upsert, if_neg hk] at h
      rcases List.mem_cons.mp h with h | h
      · exact Or.inl (h ▸ List.mem_cons_self _ _)
      · rcases ih h with h2 | h2
        · exact Or.inl (List.mem_cons_of_mem _ h2)
        · exact Or.inr h2

theorem nodup_keysOf_upsert {β : Type} {l : List (String × β)}
    (n : String) (v : β) (h : (keysOf l).Nodup) :
    (keysOf (upsert l n v)).Nodup := by
  induction l with
  | nil => simp [upsert, keysOf]
  | cons p t ih =>
    obtain ⟨k, w⟩ := p
    simp only [keysOf, List.map_cons, List.nodup_cons] at h
    by_cases hk : k = n
    · subst hk
      have hup : upsert ((k, w) :: t) k v = (k, v) :: t := by
        simp [upsert]
      rw [hup]
      simp only [keysOf, List.map_cons, List.nodup_cons]
      exact ⟨h.1, h.2⟩
    · have h1 := h.1
      have h2 := ih h.2
      simp only [upsert, if_neg hk, keysOf, List.map_cons, List.nodup_cons]
      refine ⟨fun hc => ?_, h2⟩
      rcases (keysOf_upsert t n v k).mp hc with hc | hc
      · exact h1 hc
      · exact hk hc

theorem mem_removeKey {β : Type} {l : List (String × β)} {n : String}
    {p : String × β} : p ∈ removeKey l n ↔ p ∈ l ∧ p.1 ≠ n := by
  induction l with
  | nil => simp [removeKey]
  | cons q t ih =>
    obtain ⟨k, w⟩ := q
    by_cases hk : k = n
    · subst hk
      have hrk : removeKey ((k, w) :: t) k = removeKey t k := by
        simp [removeKey]
      rw [hrk, ih, List.mem_cons]
      constructor
      · rintro ⟨h1, h2⟩; exact ⟨Or.inr h1, h2⟩
      · rintro ⟨h1 | h1, h2⟩
        · exact absurd (congrArg Prod.fst h1) h2
        · exact ⟨h1, h2⟩
    · simp only [removeKey, if_neg hk]
      rw [List.mem_cons, List.mem_cons, ih]
      constructor
      · rintro (h1 | ⟨h1, h2⟩)
        · exact ⟨Or.inl h1, by simp [h1, hk]⟩
        · exact ⟨Or.inr h1, h2⟩
      · rintro ⟨h1 | h1, h2⟩
        · exact Or.inl h1
        · exact Or.inr ⟨h1, h2⟩

theorem mem_foldl_removeKey {β : Type} (ns : List String) :
    ∀ (l : List (String × β)) (p : String × β),
      p ∈ ns.foldl removeKey l ↔ p ∈ l ∧ p.1 ∉ ns := by
  induction ns with
  | nil => intro l p; simp
  | cons n t ih =>
    intro l p
    rw [List.foldl_cons, ih, mem_removeKey, List.mem_cons]
    constructor
    · rintro ⟨⟨h1, h2⟩, h3⟩
      exact ⟨h1, by simp [h2, h3]⟩
    · rintro ⟨h1, h2⟩
      push_neg at h2
      exact ⟨⟨h1, h2.1⟩, h2.2⟩

/-! ### Order lemmas for the lexicographic rank comparison -/

theorem keyLe_total : ∀ a b : List Nat, keyLe a b = true ∨ keyLe b a = true
  | [], _ => Or.inl rfl
  | _ :: _, [] => Or.inr rfl
  | a :: as, b :: bs => by
    by_cases h1 : a < b
    · left; simp [keyLe, h1]
    · by_cases h2 : b < a
      · right; simp [keyLe, h2]
      · rcases keyLe_total as bs with h | h
        · left; simp [keyLe, h1, h2, h]
        · right; simp [keyLe, h1, h2, h]

theorem keyLe_trans : ∀ a b c : List Nat,
    keyLe a b = true → keyLe b c = true → keyLe a c = true
  | [], _, _, _, _ => rfl
  | _ :: _, [], _, h1, _ => by simp [keyLe] at h1
  | _ :: _, _ :: _, [], _, h2 => by simp [keyLe] at h2
  | a :: as, b :: bs, c :: cs, h1, h2 => by
    simp only [keyLe] at h1 h2 ⊢
    split_ifs at h1 h2 ⊢
    all_goals first
      | rfl
      | exact absurd h1 (by decide)
      | exact absurd h2 (by decide)
      | exact keyLe_trans as bs cs h1 h2
      | (exfalso; omega)

theorem keyLe_antisymm : ∀ a b : List Nat,
    keyLe a b = true → keyLe b a = true → a = b
  | [], [], _, _ => rfl
  | [], _ :: _, _, h2 => by simp [keyLe] at h2
  | _ :: _, [], h1, _ => by simp [keyLe] at h1
  | a :: as, b :: bs, h1, h2 => by
    simp only [keyLe] at h1 h2
    split_ifs at h1 h2
    all_goals first
      | exact absurd h1 (by decide)
      | exact absurd h2 (by decide)
      | (exfalso; omega)
      | (rw [show a = b from by omega, keyLe_antisymm as bs h1 h2])

instance : IsTotal Entry entryLE :=
  ⟨fun a b => keyLe_total (polish_sort_key a.name) (polish_sort_key b.name)⟩

instance : IsTrans Entry entryLE :=
  ⟨fun _ _ _ h1 h2 => keyLe_trans _ _ _ h1 h2⟩

/-! ### Lemmas about the `backend_areas` comprehension -/

theorem deriveGo_ok_of_nonempty (th : ℚ) :
    ∀ (areas : List Area) (acc : List (String × Bool)),
      (∀ a ∈ areas, a.worker_managers ≠ []) →
      ∃ m, deriveGo th acc areas = .ok m
  | [], acc, _ => ⟨acc, rfl⟩
  | a :: rest, acc, h => by
    cases hwm : a.worker_managers with
    | nil => exact absurd hwm (h a (List.mem_cons_self _ _))
    | cons wm tl =>
      simp only [deriveGo, hwm]
      exact deriveGo_ok_of_nonempty th rest _
        (fun b hb => h b (List.mem_cons_of_mem _ hb))

theorem deriveGo_error_of_empty (th : ℚ) :
    ∀ (areas : List Area) (acc : List (String × Bool)) (a : Area),
      a ∈ areas → a.worker_managers = [] →
      ∃ e, deriveGo th acc areas = .error e
  | b :: rest, acc, a, ha, hwm => by
    cases hb : b.worker_managers with
    | nil =>
      exact ⟨"IndexError: list index out of range", by simp [deriveGo, hb]⟩
    | cons wm tl =>
      rcases List.mem_cons.mp ha with rfl | ha2
      · simp [hwm] at hb
      · simp only [deriveGo, hb]
        exact deriveGo_error_of_empty th rest _ a ha2 hwm

theorem deriveGo_lookup_preserved (th : ℚ) {n : String} :
    ∀ (areas : List Area) (acc m : List (String × Bool)),
      (∀ a ∈ areas, a.name ≠ n) →
      deriveGo th acc areas = .ok m → lookupA m n = lookupA acc n
  | [], acc, m, _, h => by
    simp only [deriveGo, Except.ok.injEq] at h
    rw [h]
  | a :: rest, acc, m, hn, h => by
    cases hb : a.worker_managers with
    | nil => simp [deriveGo, hb] at h
    | cons wm tl =>
      simp only [deriveGo, hb] at h
      by_cases hz : wm.expected_workers ≠ 0
      · rw [if_pos hz] at h
        rw [deriveGo_lookup_preserved th rest _ m
              (fun b hb2 => hn b (List.mem_cons_of_mem _ hb2)) h,
            lookupA_upsert_ne _ _
              (Ne.symm (hn a (List.mem_cons_self _ _)))]
      · rw [if_neg hz] at h
        exact deriveGo_lookup_preserved th rest _ m
          (fun b hb2 => hn b (List.mem_cons_of_mem _ hb2)) h

theorem deriveGo_lookup_head (th : ℚ) :
    ∀ (areas : List Area) (acc m : List (String × Bool)) (a : Area)
      (wm : WM) (tl : List WM),
      (areas.map Area.name).Nodup → a ∈ areas →
      a.worker_managers = wm :: tl → wm.expected_workers ≠ 0 →
      deriveGo th acc areas = .ok m →
      lookupA m a.name = some (healthOf th wm)
  | b :: rest, acc, m, a, wm, tl, hnd, ha, hwm, hz, h => by
    rcases List.mem_cons.mp ha with rfl | ha2
    · simp only [deriveGo, hwm] at h
      rw [if_pos hz] at h
      rw [List.map_cons, List.nodup_cons] at hnd
      have hrest : ∀ bb ∈ rest, bb.name ≠ a.name := by
        intro bb hb heq
        exact hnd.1 (heq ▸ List.mem_map_of_mem Area.name hb)
      rw [deriveGo_lookup_preserved th rest _ m hrest h,
        lookupA_upsert_self]
    · cases hb : b.worker_managers with
      | nil => simp [deriveGo, hb] at h
      | cons wmb tlb =>
        simp only [deriveGo, hb] at h
        rw [List.map_cons, List.nodup_cons] at hnd
        have hnd2 : (rest.map Area.name).Nodup := hnd.2
        by_cases hzb : wmb.expected_workers ≠ 0
        · rw [if_pos hzb] at h
          exact deriveGo_lookup_head th rest _ m a wm tl hnd2 ha2 hwm hz h
        · rw [if_neg hzb] at h
          exact deriveGo_lookup_head th rest _ m a wm tl hnd2 ha2 hwm hz h

theorem deriveGo_lookup_zero (th : ℚ) :
    ∀ (areas : List Area) (acc m : List (String × Bool)) (a : Area)
      (wm : WM) (tl : List WM),
      (areas.map Area.name).Nodup → a ∈ areas →
      a.worker_managers = wm :: tl → wm.expected_workers = 0 →
      deriveGo th acc areas = .ok m → lookupA acc a.name = none →
      lookupA m a.name = none
  | b :: rest, acc, m, a, wm, tl, hnd, ha, hwm, hz, h, hacc => by
    rcases List.mem_cons.mp ha with rfl | ha2
    · simp only [deriveGo, hwm] at h
      rw [if_neg (by simpa using hz)] at h
      rw [List.map_cons, List.nodup_cons] at hnd
      have hrest : ∀ bb ∈ rest, bb.name ≠ a.name := by
        intro bb hb heq
        exact hnd.1 (heq ▸ List.mem_map_of_mem Area.name hb)
      rw [deriveGo_lookup_preserved th rest _ m hrest h, hacc]
    · cases hb : b.worker_managers with
      | nil => simp [deriveGo, hb] at h
      | cons wmb tlb =>
        simp only [deriveGo, hb] at h
        rw [List.map_cons, List.nodup_cons] at hnd
        have hbna : ¬b.name = a.name := by
          intro heq
          exact hnd.1 (heq ▸ List.mem_map_of_mem Area.name ha2)
        by_cases hzb : wmb.expected_workers ≠ 0
        · rw [if_pos hzb] at h
          refine deriveGo_lookup_zero th rest _ m a wm tl hnd.2 ha2 hwm hz h ?_
          rw [lookupA_upsert_ne _ _ (fun he => hbna he.symm), hacc]
        · rw [if_neg hzb] at h
          exact deriveGo_lookup_zero th rest _ m a wm tl hnd.2 ha2 hwm hz h hacc

/-! ### Fold-of-delete lemmas for `removePhase` -/

theorem mem_foldl_delete (ps : List (String × MonitorRec)) :
    ∀ (reg : Registry) (m : Monitor),
      m ∈ (ps.foldl (fun r p => api_delete_monitor r p.2.id) reg).monitors ↔
        m ∈ reg.monitors ∧ ∀ p ∈ ps, m.id ≠ p.2.id := by
  induction ps with
  | nil => intro reg m; simp
  | cons q t ih =>
    intro reg m
    rw [List.foldl_cons, ih]
    simp only [api_delete_monitor, List.mem_filter, decide_eq_true_eq]
    constructor
    · rintro ⟨⟨h1, h2⟩, h3⟩
      refine ⟨h1, ?_⟩
      intro p hp
      rcases List.mem_cons.mp hp with rfl | hp2
      · exact h2
      · exact h3 p hp2
    · rintro ⟨h1, h2⟩
      exact ⟨⟨h1, h2 q (List.mem_cons_self _ _)⟩,
        fun p hp => h2 p (List.mem_cons_of_mem _ hp)⟩

theorem foldl_delete_fields (ps : List (String × MonitorRec)) :
    ∀ reg : Registry,
      (ps.foldl (fun r p => api_delete_monitor r p.2.id) reg).tags =
          reg.tags ∧
        (ps.foldl (fun r p => api_delete_monitor r p.2.id) reg).page =
          reg.page ∧
        (ps.foldl (fun r p => api_delete_monitor r p.2.id) reg).lastSaved =
          reg.lastSaved ∧
        (ps.foldl (fun r p => api_delete_monitor r p.2.id) reg).sessionOk =
          reg.sessionOk ∧
        (ps.foldl (fun r p => api_delete_monitor r p.2.id) reg).nextId =
          reg.nextId := by
  induction ps with
  | nil => intro reg; exact ⟨rfl, rfl, rfl, rfl, rfl⟩
  | cons q t ih =>
    intro reg
    simpa [api_delete_monitor] using ih (api_delete_monitor reg q.2.id)

theorem removePhase_cache_mem (reg : Registry) (c : Cache)
    (desired : List String) (p : String × MonitorRec) :
    p ∈ (removePhase reg c desired).cache ↔ p ∈ c ∧ p.1 ∈ desired := by
  simp only [removePhase, mem_foldl_removeKey]
  constructor
  · rintro ⟨h1, h2⟩
    by_cases hd : p.1 ∈ desired
    · exact ⟨h1, hd⟩
    · exfalso
      apply h2
      exact List.mem_map.mpr
        ⟨p, List.mem_filter.mpr ⟨h1, by simpa using hd⟩, rfl⟩
  · rintro ⟨h1, h2⟩
    refine ⟨h1, fun hc => ?_⟩
    rcases List.mem_map.mp hc with ⟨q, hq, he⟩
    have := (List.mem_filter.mp hq).2
    simp only [decide_eq_true_eq] at this
    exact this (he ▸ h2)

theorem removePhase_registry_mem (reg : Registry) (c : Cache)
    (desired : List String) (m : Monitor) :
    m ∈ (removePhase reg c desired).registry.monitors ↔
      m ∈ reg.monitors ∧ m.id ∉ (removePhase reg c desired).deletedIds := by
  simp only [removePhase, mem_foldl_delete, List.mem_map]
  constructor
  · rintro ⟨h1, h2⟩
    refine ⟨h1, ?_⟩
    rintro ⟨q, hq, he⟩
    exact h2 q hq he.symm
  · rintro ⟨h1, h2⟩
    refine ⟨h1, fun p hp he => h2 ⟨p, hp, he.symm⟩⟩

/-! ### Lemmas about `add_monitor` and the create-missing loop -/

theorem find?_append_of_none {α : Type} (p : α → Bool) :
    ∀ (l1 l2 : List α), (∀ x ∈ l1, p x = false) →
      (l1 ++ l2).find? p = l2.find? p
  | [], _, _ => rfl
  | x :: t, l2, h => by
    rw [List.cons_append,
      List.find?_cons_of_neg _ (by simp [h x (List.mem_cons_self _ _)])]
    exact find?_append_of_none p t l2
      (fun y hy => h y (List.mem_cons_of_mem _ hy))

theorem add_monitor_ok (r : Registry) (name : String) (tid : Nat)
    (hwf : RegistryWF r) :
    add_monitor r name tid =
      (afterAdd r name tid, .ok ⟨r.nextId, title name, r.nextToken⟩) := by
  have hne : ∀ m ∈ r.monitors, ¬m.id = r.nextId :=
    fun m hm => Nat.ne_of_lt (hwf m hm)
  have hmap : r.monitors.map
      (fun m =>
        if m.id = r.nextId then { m with tags := m.tags ++ [tid] } else m)
      = r.monitors := by
    have h2 := List.map_congr_left (l := r.monitors)
      (f := fun m =>
        if m.id = r.nextId then { m with tags := m.tags ++ [tid] } else m)
      (g := id) (fun m hm => by simp [hne m hm])
    simpa using h2
  have hfind : ((r.monitors ++
      [({ id := r.nextId, name := title name, pushToken := r.nextToken,
          interval := 70, tags := [tid] } : Monitor)]).find?
        fun m => decide (m.id = r.nextId))
      = some { id := r.nextId, name := title name,
               pushToken := r.nextToken, interval := 70, tags := [tid] } := by
    rw [find?_append_of_none _ _ _ (fun m hm => by simp [hne m hm])]
    simp [List.find?]
  unfold add_monitor api_add_monitor api_add_monitor_tag api_get_monitor
  simp [hmap, hfind, afterAdd]

theorem afterAdd_wf (r : Registry) (name : String) (tid : Nat)
    (hwf : RegistryWF r) : RegistryWF (afterAdd r name tid) := by
  intro m hm
  simp only [afterAdd, List.mem_append, List.mem_cons] at hm
  rcases hm with hm | hm
  · exact Nat.lt_succ_of_lt (hwf m hm)
  · rcases hm with rfl | hm
    · exact Nat.lt_succ_self _
    · cases hm

theorem createLoop_all_mem (tid : Nat) :
    ∀ (reg : Registry) (c : Cache) (ds : List String),
      (∀ d ∈ ds, d ∈ keysOf c) →
      createLoop tid reg c ds = ⟨reg, c, [], none⟩
  | _, _, [], _ => rfl
  | reg, c, d :: ds, h => by
    rw [createLoop, if_pos (h d (List.mem_cons_self _ _))]
    exact createLoop_all_mem tid reg c ds
      (fun x hx => h x (List.mem_cons_of_mem _ hx))

theorem createLoop_spec (tid : Nat) :
    ∀ (reg : Registry) (c : Cache) (ds : List String),
      RegistryWF reg → (∀ d ∈ ds, title d = d) →
      (createLoop tid reg c ds).err = none ∧
      RegistryWF (createLoop tid reg c ds).registry ∧
      (∀ n, n ∈ keysOf (createLoop tid reg c ds).cache ↔
        n ∈ keysOf c ∨ n ∈ ds) ∧
      (∀ n, n ∉ ds →
        lookupA (createLoop tid reg c ds).cache n = lookupA c n) ∧
      (∀ m ∈ (createLoop tid reg c ds).registry.monitors,
        m ∈ reg.monitors ∨ m.name ∈ ds) ∧
      (createLoop tid reg c ds).registry.tags = reg.tags ∧
      (createLoop tid reg c ds).registry.page = reg.page ∧
      (createLoop tid reg c ds).registry.sessionOk = reg.sessionOk ∧
      (∀ p ∈ (createLoop tid reg c ds).cache, p ∈ c ∨ p.2.name = p.1) ∧
      ((keysOf c).Nodup → (keysOf (createLoop tid reg c ds).cache).Nodup)
  | reg, c, [], hwf, _ => by
    refine ⟨rfl, hwf, ?_, ?_, ?_, rfl, rfl, rfl, ?_, ?_⟩
    · intro n; simp [createLoop]
    · intro n _; rfl
    · intro m hm; exact Or.inl hm
    · intro p hp; exact Or.inl hp
    · intro h; exact h
  | reg, c, d :: ds, hwf, htitle => by
    by_cases hd : d ∈ keysOf c
    · rw [createLoop, if_pos hd]
      have ih := createLoop_spec tid reg c ds hwf
        (fun x hx => htitle x (List.mem_cons_of_mem _ hx))
      obtain ⟨h1, h2, h3, h4, h5, h6, h7, h8, h9, h10⟩ := ih
      refine ⟨h1, h2, ?_, ?_, ?_, h6, h7, h8, h9, h10⟩
      · intro n
        rw [h3 n, List.mem_cons]
        constructor
        · rintro (hn | hn)
          · exact Or.inl hn
          · exact Or.inr (Or.inr hn)
        · rintro (hn | rfl | hn)
          · exact Or.inl hn
          · exact Or.inl hd
          · exact Or.inr hn
      · intro n hn
        exact h4 n (fun hx => hn (List.mem_cons_of_mem _ hx))
      · intro m hm
        rcases h5 m hm with hm2 | hm2
        · exact Or.inl hm2
        · exact Or.inr (List.mem_cons_of_mem _ hm2)
    · have htd : title d = d := htitle d (List.mem_cons_self _ _)
      rw [createLoop, if_neg hd, add_monitor_ok reg d tid hwf]
      have hwf2 : RegistryWF (afterAdd reg d tid) := afterAdd_wf reg d tid hwf
      have ih := createLoop_spec tid (afterAdd reg d tid)
        (upsert c (title d)
          ⟨reg.nextId, title d, reg.nextToken⟩) ds hwf2
        (fun x hx => htitle x (List.mem_cons_of_mem _ hx))
      obtain ⟨h1, h2, h3, h4, h5, h6, h7, h8, h9, h10⟩ := ih
      refine ⟨h1, h2, ?_, ?_, ?_, h6, h7, h8, ?_, ?_⟩
      · intro n
        rw [h3 n, keysOf_upsert, htd, List.mem_cons]
        tauto
      · intro n hn
        have hn1 : n ∉ ds := fun hx => hn (List.mem_cons_of_mem _ hx)
        have hn2 : n ≠ d := fun hx => hn (hx ▸ List.mem_cons_self _ _)
        rw [h4 n hn1, htd, lookupA_upsert_ne _ _ hn2]
      · intro m hm
        rcases h5 m hm with hm2 | hm2
        · simp only [afterAdd, List.mem_append, List.mem_cons] at hm2
          rcases hm2 with hm3 | hm3
          · exact Or.inl hm3
          · rcases hm3 with rfl | hm3
            · exact Or.inr (by simp [htd])
            · cases hm3
        · exact Or.inr (List.mem_cons_of_mem _ hm2)
      · intro p hp
        rcases h9 p hp with hp2 | hp2
        · rcases mem_upsert_elim hp2 with hp3 | hp3
          · exact Or.inl hp3
          · right; rw [hp3]
        · exact Or.inr hp2
      · intro hnd
        exact h10 (nodup_keysOf_upsert _ _ hnd)

/-! ### Lemmas about the cache rebuild -/

theorem mem_taggedNames {tid : Nat} {ms : List Monitor} {n : String} :
    n ∈ taggedNames tid ms ↔ ∃ m ∈ ms, tid ∈ m.tags ∧ m.name = n := by
  simp only [taggedNames, List.mem_map, List.mem_filter, decide_eq_true_eq]
  constructor
  · rintro ⟨m, ⟨hm, ht⟩, he⟩
    exact ⟨m, hm, ht, he⟩
  · rintro ⟨m, hm, ht, he⟩
    exact ⟨m, ⟨hm, ht⟩, he⟩

theorem taggedNames_cons_pos {tid : Nat} {m : Monitor} (ms : List Monitor)
    (h : tid ∈ m.tags) :
    taggedNames tid (m :: ms) = m.name :: taggedNames tid ms := by
  simp [taggedNames, List.filter_cons, h]

theorem taggedNames_cons_neg {tid : Nat} {m : Monitor} (ms : List Monitor)
    (h : tid ∉ m.tags) :
    taggedNames tid (m :: ms) = taggedNames tid ms := by
  simp [taggedNames, List.filter_cons, h]

theorem rebuild_cons (tid : Nat) (m : Monitor) (ms : List Monitor)
    (c : Cache) :
    rebuild tid (m :: ms) c =
      rebuild tid ms
        (if tid ∈ m.tags then upsert c m.name ⟨m.id, m.name, m.pushToken⟩
         else c) := by
  simp [rebuild]

theorem keysOf_rebuild (tid : Nat) :
    ∀ (ms : List Monitor) (c : Cache) (n : String),
      n ∈ keysOf (rebuild tid ms c) ↔
        n ∈ keysOf c ∨ n ∈ taggedNames tid ms
  | [], c, n => by simp [rebuild, taggedNames]
  | m :: ms, c, n => by
    rw [rebuild_cons, keysOf_rebuild tid ms]
    by_cases ht : tid ∈ m.tags
    · rw [if_pos ht, keysOf_upsert, taggedNames_cons_pos ms ht,
        List.mem_cons]
      tauto
    · rw [if_neg ht, taggedNames_cons_neg ms ht]

theorem rebuild_lookup_notag (tid : Nat) :
    ∀ (ms : List Monitor) (c : Cache) (n : String),
      n ∉ taggedNames tid ms →
      lookupA (rebuild tid ms c) n = lookupA c n
  | [], _, _, _ => rfl
  | m :: ms, c, n, hn => by
    rw [rebuild_cons]
    by_cases ht : tid ∈ m.tags
    · rw [if_pos ht]
      have hne : n ≠ m.name := by
        intro he
        exact hn (mem_taggedNames.mpr ⟨m, List.mem_cons_self _ _, ht, he.symm⟩)
      have hn2 : n ∉ taggedNames tid ms := by
        intro hx
        rcases mem_taggedNames.mp hx with ⟨m2, hm2, ht2, he2⟩
        exact hn (mem_taggedNames.mpr
          ⟨m2, List.mem_cons_of_mem _ hm2, ht2, he2⟩)
      rw [rebuild_lookup_notag tid ms _ n hn2, lookupA_upsert_ne _ _ hne]
    · rw [if_neg ht]
      have hn2 : n ∉ taggedNames tid ms := by
        intro hx
        rcases mem_taggedNames.mp hx with ⟨m2, hm2, ht2, he2⟩
        exact hn (mem_taggedNames.mpr
          ⟨m2, List.mem_cons_of_mem _ hm2, ht2, he2⟩)
      exact rebuild_lookup_notag tid ms c n hn2

theorem rebuild_lookup_tagged (tid : Nat) :
    ∀ (ms : List Monitor) (c : Cache) (m : Monitor),
      (taggedNames tid ms).Nodup → m ∈ ms → tid ∈ m.tags →
      lookupA (rebuild tid ms c) m.name =
        some ⟨m.id, m.name, m.pushToken⟩
  | m0 :: ms, c, m, hnd, hm, ht => by
    rw [rebuild_cons]
    by_cases ht0 : tid ∈ m0.tags
    · rw [taggedNames_cons_pos ms ht0, List.nodup_cons] at hnd
      rcases List.mem_cons.mp hm with rfl | hm2
      · rw [if_pos ht]
        rw [rebuild_lookup_notag tid ms _ m.name hnd.1,
          lookupA_upsert_self]
      · rw [if_pos ht0]
        exact rebuild_lookup_tagged tid ms _ m hnd.2 hm2 ht
    · rw [taggedNames_cons_neg ms ht0] at hnd
      rcases List.mem_cons.mp hm with rfl | hm2
      · exact absurd ht ht0
      · rw [if_neg ht0]
        exact rebuild_lookup_tagged tid ms c m hnd hm2 ht

theorem rebuild_cacheWF (tid : Nat) :
    ∀ (ms : List Monitor) (c : Cache),
      (∀ p ∈ c, p.2.name = p.1) →
      ∀ p ∈ rebuild tid ms c, p.2.name = p.1
  | [], c, hc => hc
  | m :: ms, c, hc => by
    rw [rebuild_cons]
    by_cases ht : tid ∈ m.tags
    · rw [if_pos ht]
      refine rebuild_cacheWF tid ms _ ?_
      intro p hp
      rcases mem_upsert_elim hp with hp2 | hp2
      · exact hc p hp2
      · rw [hp2]
    · rw [if_neg ht]
      exact rebuild_cacheWF tid ms c hc

theorem rebuild_nodup (tid : Nat) :
    ∀ (ms : List Monitor) (c : Cache),
      (keysOf c).Nodup → (keysOf (rebuild tid ms c)).Nodup
  | [], _, h => h
  | m :: ms, c, h => by
    rw [rebuild_cons]
    by_cases ht : tid ∈ m.tags
    · rw [if_pos ht]
      exact rebuild_nodup tid ms _ (nodup_keysOf_upsert _ _ h)
    · rw [if_neg ht]
      exact rebuild_nodup tid ms c h

/-! ### Lemmas about the status-page step and the whole pass -/

theorem statusPageStep_spec (cfg : Config) (reg : Registry) (c : Cache)
    (reg4 : Registry) (h : statusPageStep cfg reg c = .ok reg4) :
    reg4.monitors = reg.monitors ∧ reg4.tags = reg.tags ∧
    reg4.sessionOk = reg.sessionOk ∧
    ∃ doc, reg4.lastSaved = some doc ∧ doc.incident = none ∧
      doc.maintenanceList = none ∧
      doc.publicGroupList = reg.page.publicGroupList.map (fun row =>
        if row.name = cfg.group then
          { row with monitorList := sortEntries (entriesOf c) }
        else row) := by
  simp only [statusPageStep] at h
  cases hi : reg.page.incident with
  | none => rw [hi] at h; simp at h
  | some i =>
    cases hm : reg.page.maintenanceList with
    | none => rw [hi, hm] at h; simp at h
    | some j =>
      rw [hi, hm] at h
      simp only [Except.ok.injEq] at h
      subst h
      exact ⟨rfl, rfl, rfl, ⟨_, rfl, rfl, rfl, rfl⟩⟩

theorem removeKey_sublist {β : Type} (n : String) :
    ∀ l : List (String × β), List.Sublist (removeKey l n) l
  | [] => List.Sublist.refl _
  | (k, w) :: t => by
    by_cases hk : k = n
    · rw [removeKey, if_pos hk]
      exact (removeKey_sublist n t).cons _
    · rw [removeKey, if_neg hk]
      exact (removeKey_sublist n t).cons₂ _

theorem nodup_keysOf_foldl_removeKey {β : Type} :
    ∀ (ns : List String) (l : List (String × β)),
      (keysOf l).Nodup → (keysOf (ns.foldl removeKey l)).Nodup
  | [], _, h => h
  | n :: t, l, h => by
    rw [List.foldl_cons]
    refine nodup_keysOf_foldl_removeKey t _ ?_
    exact List.Nodup.sublist ((removeKey_sublist n l).map Prod.fst) h

theorem removePhase_fields (reg : Registry) (c : Cache)
    (desired : List String) :
    (removePhase reg c desired).registry.tags = reg.tags ∧
      (removePhase reg c desired).registry.page = reg.page ∧
      (removePhase reg c desired).registry.sessionOk = reg.sessionOk := by
  simp only [removePhase]
  have h := foldl_delete_fields (c.filter fun p => decide (p.1 ∉ desired)) reg
  exact ⟨h.1, h.2.1, h.2.2.2.1⟩

theorem mem_removePhase_deletedIds (reg : Registry) (c : Cache)
    (desired : List String) {i : Nat} :
    i ∈ (removePhase reg c desired).deletedIds ↔
      ∃ p ∈ c, p.1 ∉ desired ∧ p.2.id = i := by
  simp only [removePhase, List.mem_map, List.mem_filter, decide_eq_true_eq]
  constructor
  · rintro ⟨p, ⟨hp, hd⟩, he⟩
    exact ⟨p, hp, hd, he⟩
  · rintro ⟨p, hp, hd, he⟩
    exact ⟨p, ⟨hp, hd⟩, he⟩

theorem removePhase_nodup (reg : Registry) (c : Cache)
    (desired : List String) (h : (keysOf c).Nodup) :
    (keysOf (removePhase reg c desired).cache).Nodup := by
  simp only [removePhase]
  exact nodup_keysOf_foldl_removeKey _ c h

theorem reconcile_eq_body (cfg : Config) (reg : Registry) (c : Cache)
    (desired : List String) (tid : Nat) (h1 : reg.sessionOk = true)
    (h2 : lookupA (fetch_tags reg) cfg.tag_name = some tid) :
    reconcile cfg reg c desired = reconcileBody cfg reg c desired tid := by
  unfold reconcile
  rw [h2]
  simp [h1]

theorem reconcileBody_eq (cfg : Config) (reg : Registry) (c : Cache)
    (desired : List String) (tid : Nat) (reg4 : Registry)
    (hco :
      (createLoop tid reg (rebuild tid reg.monitors c) desired).err = none)
    (hsp : statusPageStep cfg
        (removePhase
          (createLoop tid reg (rebuild tid reg.monitors c) desired).registry
          (createLoop tid reg (rebuild tid reg.monitors c) desired).cache
          desired).registry
        (removePhase
          (createLoop tid reg (rebuild tid reg.monitors c) desired).registry
          (createLoop tid reg (rebuild tid reg.monitors c) desired).cache
          desired).cache = .ok reg4) :
    reconcileBody cfg reg c desired tid =
      ⟨reg4,
       (removePhase
         (createLoop tid reg (rebuild tid reg.monitors c) desired).registry
         (createLoop tid reg (rebuild tid reg.monitors c) desired).cache
         desired).cache,
       (createLoop tid reg (rebuild tid reg.monitors c) desired).created,
       (removePhase
         (createLoop tid reg (rebuild tid reg.monitors c) desired).registry
         (createLoop tid reg (rebuild tid reg.monitors c) desired).cache
         desired).deletedIds,
       true, none⟩ := by
  simp only [reconcileBody]
  rw [hco, hsp]

theorem reconcile_spec (cfg : Config) (reg : Registry) (c : Cache)
    (desired : List String)
    (hwf : RegistryWF reg)
    (htitle : ∀ n ∈ desired, title n = n)
    (htag : tagNodupOk cfg reg = true)
    (hok : (reconcile cfg reg c desired).err = none) :
    (∀ n, n ∈ keysOf (reconcile cfg reg c desired).cache ↔ n ∈ desired) ∧
    (reconcile cfg reg c desired).registry.sessionOk = reg.sessionOk ∧
    (reconcile cfg reg c desired).registry.tags = reg.tags ∧
    (∀ tid, lookupA (fetch_tags reg) cfg.tag_name = some tid →
      ∀ m ∈ (reconcile cfg reg c desired).registry.monitors,
        tid ∈ m.tags → m.name ∈ desired) ∧
    (∃ doc,
      (reconcile cfg reg c desired).registry.lastSaved = some doc ∧
      doc.incident = none ∧ doc.maintenanceList = none ∧
      doc.publicGroupList = reg.page.publicGroupList.map (fun row =>
        if row.name = cfg.group then
          { row with monitorList :=
              sortEntries (entriesOf (reconcile cfg reg c desired).cache) }
        else row)) ∧
    ((∀ p ∈ c, p.2.name = p.1) →
      ∀ p ∈ (reconcile cfg reg c desired).cache, p.2.name = p.1) ∧
    ((keysOf c).Nodup →
      (keysOf (reconcile cfg reg c desired).cache).Nodup) := by
  cases hsess : reg.sessionOk with
  | false =>
    exfalso
    unfold reconcile at hok
    rw [hsess] at hok
    simp at hok
  | true =>
    cases htid : lookupA (fetch_tags reg) cfg.tag_name with
    | none =>
      exfalso
      unfold reconcile at hok
      rw [htid] at hok
      simp [hsess] at hok
    | some tid =>
      have hre := reconcile_eq_body cfg reg c desired tid hsess htid
      have hcl := createLoop_spec tid reg (rebuild tid reg.monitors c)
        desired hwf htitle
      obtain ⟨e1, e2, e3, e4, e5, e6, e7, e8, e9, e10⟩ := hcl
      cases hsp : statusPageStep cfg
          (removePhase
            (createLoop tid reg (rebuild tid reg.monitors c) desired).registry
            (createLoop tid reg (rebuild tid reg.monitors c) desired).cache
            desired).registry
          (removePhase
            (createLoop tid reg (rebuild tid reg.monitors c) desired).registry
            (createLoop tid reg (rebuild tid reg.monitors c) desired).cache
            desired).cache with
      | error e =>
        exfalso
        rw [hre] at hok
        simp only [reconcileBody] at hok
        rw [e1, hsp] at hok
        simp at hok
      | ok reg4 =>
        have hbody := reconcileBody_eq cfg reg c desired tid reg4 e1 hsp
        have hre2 := hre.trans hbody
        rw [hre2]
        dsimp only
        have hpage := statusPageStep_spec cfg _ _ reg4 hsp
        have hrpf := removePhase_fields
          (createLoop tid reg (rebuild tid reg.monitors c) desired).registry
          (createLoop tid reg (rebuild tid reg.monitors c) desired).cache
          desired
        have h1 : ∀ n,
            n ∈ keysOf (removePhase
              (createLoop tid reg (rebuild tid reg.monitors c)
                desired).registry
              (createLoop tid reg (rebuild tid reg.monitors c)
                desired).cache desired).cache ↔
              n ∈ keysOf (createLoop tid reg (rebuild tid reg.monitors c)
                desired).cache ∧ n ∈ desired := by
          intro n
          constructor
          · intro hn
            rcases mem_keysOf_iff.mp hn with ⟨v, hv⟩
            have hv2 := (removePhase_cache_mem _ _ _ (n, v)).mp hv
            exact ⟨mem_keysOf_iff.mpr ⟨v, hv2.1⟩, hv2.2⟩
          · rintro ⟨hk, hd⟩
            rcases mem_keysOf_iff.mp hk with ⟨v, hv⟩
            exact mem_keysOf_iff.mpr
              ⟨v, (removePhase_cache_mem _ _ _ (n, v)).mpr ⟨hv, hd⟩⟩
        refine ⟨?_, ?_, ?_, ?_, ?_, ?_, ?_⟩
        · intro n
          rw [h1 n, e3 n]
          constructor
          · exact fun h => h.2
          · exact fun hd => ⟨Or.inr hd, hd⟩
        · exact hpage.2.2.1.trans (hrpf.2.2.trans (e8.trans hsess))
        · exact hpage.2.1.trans (hrpf.1.trans e6)
        · intro tid2 htid2 m hm htg
          have htideq : tid2 = tid := by
            simpa using htid2.symm
          subst htideq
          rw [hpage.1] at hm
          have hm2 := (removePhase_registry_mem _ _ _ m).mp hm
          rcases e5 m hm2.1 with hmreg | hmname
          · by_contra hnd2
            have hnodup : (taggedNames tid2 reg.monitors).Nodup := by
              unfold tagNodupOk at htag
              rw [htid] at htag
              simpa using htag
            have hl1 : lookupA (rebuild tid2 reg.monitors c) m.name =
                some ⟨m.id, m.name, m.pushToken⟩ :=
              rebuild_lookup_tagged tid2 reg.monitors c m hnodup hmreg htg
            have hl2 : lookupA (createLoop tid2 reg
                (rebuild tid2 reg.monitors c) desired).cache m.name =
                some ⟨m.id, m.name, m.pushToken⟩ := by
              rw [e4 m.name hnd2, hl1]
            have hdel : m.id ∈ (removePhase
                (createLoop tid2 reg (rebuild tid2 reg.monitors c)
                  desired).registry
                (createLoop tid2 reg (rebuild tid2 reg.monitors c)
                  desired).cache desired).deletedIds :=
              (mem_removePhase_deletedIds _ _ _).mpr
                ⟨(m.name, ⟨m.id, m.name, m.pushToken⟩),
                 lookupA_mem hl2, hnd2, rfl⟩
            exact hm2.2 hdel
          · exact hmname
        · rcases hpage.2.2.2 with ⟨doc, hd1, hd2, hd3, hd4⟩
          refine ⟨doc, hd1, hd2, hd3, ?_⟩
          rw [hd4, hrpf.2.1, e7]
        · intro hcwf p hp
          have hp2 := ((removePhase_cache_mem _ _ _ p).mp hp).1
          rcases e9 p hp2 with hin | hname
          · exact rebuild_cacheWF tid reg.monitors c hcwf p hin
          · exact hname
        · intro hnd
          exact removePhase_nodup _ _ _
            (e10 (rebuild_nodup tid reg.monitors c hnd))

theorem reconcileBody_projections (cfg : Config) (reg : Registry)
    (c : Cache) (desired : List String) (tid : Nat)
    (hco :
      (createLoop tid reg (rebuild tid reg.monitors c) desired).err = none) :
    (reconcileBody cfg reg c desired tid).created =
      (createLoop tid reg (rebuild tid reg.monitors c) desired).created ∧
    (reconcileBody cfg reg c desired tid).deletedIds =
      (removePhase
        (createLoop tid reg (rebuild tid reg.monitors c) desired).registry
        (createLoop tid reg (rebuild tid reg.monitors c) desired).cache
        desired).deletedIds := by
  simp only [reconcileBody]
  rw [hco]
  cases statusPageStep cfg
      (removePhase
        (createLoop tid reg (rebuild tid reg.monitors c) desired).registry
        (createLoop tid reg (rebuild tid reg.monitors c) desired).cache
        desired).registry
      (removePhase
        (createLoop tid reg (rebuild tid reg.monitors c) desired).registry
        (createLoop tid reg (rebuild tid reg.monitors c) desired).cache
        desired).cache with
  | error e => exact ⟨rfl, rfl⟩
  | ok reg4 => exact ⟨rfl, rfl⟩

/-! ### Claim C1 -/

/-- C1 as stated is false on the code: the pass on desired set
`{"abc"}` completes without error (`err = none`), yet afterwards the
cache name set is empty rather than equal to `{"abc"}` — the monitor is
created under the title-cased name `"Abc"`, cached under that name, and
then immediately deleted by the remove-old loop because `"Abc"` is not a
desired area name. -/
theorem C1_counterexample :
    (reconcile cfgW regW [] ["abc"]).err = none ∧
    ¬(∀ n, n ∈ keysOf (reconcile cfgW regW [] ["abc"]).cache ↔
        n ∈ ["abc"]) :=
  ⟨by decide,
   fun h => absurd ((h "abc").mpr (by decide)) (by decide)⟩

/-- C1 (amended): for every reconciliation pass that completes without
error, provided every desired area name is identical to its title-cased
form, the registry issues fresh monitor ids, and the registry's
tagged monitors have pairwise distinct names, afterwards the set of
monitor-cache names equals the set of desired area names, and a second
pass immediately afterwards with the same desired set issues zero
monitor create calls and zero monitor delete calls. -/
theorem C1_amended (cfg : Config) (reg : Registry) (c : Cache)
    (desired : List String)
    (hwf : RegistryWF reg)
    (htitle : ∀ n ∈ desired, title n = n)
    (htag : tagNodupOk cfg reg = true)
    (hok : (reconcile cfg reg c desired).err = none) :
    (∀ n, n ∈ keysOf (reconcile cfg reg c desired).cache ↔ n ∈ desired) ∧
    (reconcile cfg (reconcile cfg reg c desired).registry
      (reconcile cfg reg c desired).cache desired).created = [] ∧
    (reconcile cfg (reconcile cfg reg c desired).registry
      (reconcile cfg reg c desired).cache desired).deletedIds = [] := by
  obtain ⟨h1, h2, h3, h4, h5, h6, h7⟩ :=
    reconcile_spec cfg reg c desired hwf htitle htag hok
  have hsess : reg.sessionOk = true := by
    cases hx : reg.sessionOk
    · exfalso
      unfold reconcile at hok
      rw [hx] at hok
      simp at hok
    · rfl
  obtain ⟨tid, htid⟩ :
      ∃ tid, lookupA (fetch_tags reg) cfg.tag_name = some tid := by
    cases hx : lookupA (fetch_tags reg) cfg.tag_name with
    | none =>
      exfalso
      unfold reconcile at hok
      rw [hx] at hok
      simp [hsess] at hok
    | some tid => exact ⟨tid, rfl⟩
  refine ⟨h1, ?_⟩
  have htid2 : lookupA (fetch_tags
      (reconcile cfg reg c desired).registry) cfg.tag_name = some tid := by
    unfold fetch_tags at htid ⊢
    rw [h3, htid]
  have hsess2 : (reconcile cfg reg c desired).registry.sessionOk = true :=
    h2.trans hsess
  have hre2 := reconcile_eq_body cfg (reconcile cfg reg c desired).registry
    (reconcile cfg reg c desired).cache desired tid hsess2 htid2
  have hdmem : ∀ d ∈ desired,
      d ∈ keysOf (rebuild tid
        (reconcile cfg reg c desired).registry.monitors
        (reconcile cfg reg c desired).cache) := by
    intro d hd
    exact (keysOf_rebuild tid _ _ d).mpr (Or.inl ((h1 d).mpr hd))
  have hcl2 := createLoop_all_mem tid
    (reconcile cfg reg c desired).registry
    (rebuild tid (reconcile cfg reg c desired).registry.monitors
      (reconcile cfg reg c desired).cache) desired hdmem
  have hproj := reconcileBody_projections cfg
    (reconcile cfg reg c desired).registry
    (reconcile cfg reg c desired).cache desired tid (by rw [hcl2])
  rw [hre2, hproj.1, hproj.2, hcl2]
  constructor
  · rfl
  · have hfilter : (rebuild tid
        (reconcile cfg reg c desired).registry.monitors
        (reconcile cfg reg c desired).cache).filter
        (fun p => decide (p.1 ∉ desired)) = [] := by
      rw [List.filter_eq_nil_iff]
      intro p hp
      simp only [decide_eq_true_eq, Decidable.not_not]
      have hk : p.1 ∈ keysOf (rebuild tid
          (reconcile cfg reg c desired).registry.monitors
          (reconcile cfg reg c desired).cache) :=
        List.mem_map_of_mem Prod.fst hp
      rcases (keysOf_rebuild tid _ _ p.1).mp hk with hk2 | hk2
      · exact (h1 p.1).mp hk2
      · rcases mem_taggedNames.mp hk2 with ⟨m, hm, htg, hname⟩
        exact hname ▸ h4 tid htid m hm htg
    simp only [removePhase, hfilter, List.map_nil]

/-- Witness for C1 (amended) at a concrete input: area set `{"Abc"}`
(already title-cased) against the empty registry. -/
theorem C1_amended_witness :
    "Abc" ∈ keysOf (reconcile cfgW regW [] ["Abc"]).cache ∧
    (reconcile cfgW (reconcile cfgW regW [] ["Abc"]).registry
      (reconcile cfgW regW [] ["Abc"]).cache ["Abc"]).created = [] ∧
    (reconcile cfgW (reconcile cfgW regW [] ["Abc"]).registry
      (reconcile cfgW regW [] ["Abc"]).cache ["Abc"]).deletedIds = [] := by
  have h := C1_amended cfgW regW [] ["Abc"]
    (by unfold RegistryWF; decide) (by decide) (by decide) (by decide)
  exact ⟨(h.1 "Abc").mpr (by decide), h.2.1, h.2.2⟩

/-! ### Claim C9 -/

/-- C9: when the create-missing loop creates a monitor for an area, the
monitor is created under the title-cased form of the area name and the
cache entry is keyed by the registry-returned (title-cased) name, so
for an area whose name differs from its title-cased form the cache key
after creation is not the area name. -/
theorem C9_title_key (reg : Registry) (c : Cache) (tid : Nat)
    (name : String) (hwf : RegistryWF reg) (hmem : name ∉ keysOf c)
    (hne : title name ≠ name) :
    (createLoop tid reg c [name]).err = none ∧
    title name ∈ keysOf (createLoop tid reg c [name]).cache ∧
    name ∉ keysOf (createLoop tid reg c [name]).cache := by
  rw [createLoop, if_neg hmem, add_monitor_ok reg name tid hwf]
  dsimp only
  refine ⟨rfl, ?_, ?_⟩
  · exact (keysOf_upsert c (title name) _ (title name)).mpr (Or.inr rfl)
  · intro hc
    rcases (keysOf_upsert c (title name) _ name).mp hc with h | h
    · exact hmem h
    · exact hne h.symm

/-- Witness for C9 at the concrete area name `"abc"`: the cache key
after creation is `"Abc"`, not `"abc"`. -/
theorem C9_title_key_witness :
    "Abc" ∈ keysOf (createLoop 1 regW [] ["abc"]).cache ∧
    "abc" ∉ keysOf (createLoop 1 regW [] ["abc"]).cache := by
  have h := C9_title_key regW [] 1 "abc"
    (by unfold RegistryWF; decide) (by decide) (by decide)
  have ht : title "abc" = "Abc" := by decide
  rw [ht] at h
  exact ⟨h.2.1, h.2.2⟩

/-- Evaluation of the comprehension on a single-area response with one
worker-manager report (the health boolean is kept symbolic because
rational arithmetic is settled by `norm_num`, not kernel reduction). -/
theorem deriveAreas_single_ok (th : ℚ) (nm : String) (aw ew : Nat)
    (hne : ew ≠ 0) :
    deriveAreas th [⟨nm, [⟨aw, ew⟩]⟩] =
      .ok [(nm, healthOf th ⟨aw, ew⟩)] := by
  simp [deriveAreas, deriveGo, hne, upsert]

/-! ### Claim C6 -/

/-- C6 is false as stated: the comparison is not a strict total order
on names — two names compare equal without being identical strings.
`polish_sort_key "0" = polish_sort_key "m"`: the code point of `'0'`
(48) equals the alphabet position of `'m'` (48), so the distinct names
`"0"` and `"m"` tie. -/
theorem C6_counterexample :
    polish_sort_key "0" = polish_sort_key "m" ∧ "0" ≠ "m" := by
  decide

/-- C6 (amended): the sort key induces a deterministic total preorder —
lexicographic comparison over per-character ranks (alphabet position
inside the fixed alphabet, raw code point otherwise) is total and
transitive, and two names compare equal in both directions exactly when
their rank sequences are equal; rank sequences of distinct names can
coincide when an outside-alphabet character's code point equals an
alphabet position. -/
theorem C6_amended :
    (∀ s t : String,
      keyLe (polish_sort_key s) (polish_sort_key t) = true ∨
      keyLe (polish_sort_key t) (polish_sort_key s) = true) ∧
    (∀ s t u : String,
      keyLe (polish_sort_key s) (polish_sort_key t) = true →
      keyLe (polish_sort_key t) (polish_sort_key u) = true →
      keyLe (polish_sort_key s) (polish_sort_key u) = true) ∧
    (∀ s t : String,
      keyLe (polish_sort_key s) (polish_sort_key t) = true →
      keyLe (polish_sort_key t) (polish_sort_key s) = true →
      polish_sort_key s = polish_sort_key t) :=
  ⟨fun _ _ => keyLe_total _ _,
   fun _ _ _ => keyLe_trans _ _ _,
   fun _ _ => keyLe_antisymm _ _⟩

/-- Witness for C6 (amended) at the concrete tie `"0"` / `"m"`. -/
theorem C6_amended_witness :
    polish_sort_key "0" = polish_sort_key "m" :=
  C6_amended.2.2 "0" "m" (by decide) (by decide)

/-! ### Claim C7 -/

/-- C7: for a worker-pool report heading an area with nonzero expected
workers (area names distinct in the response), the derived health
boolean is exactly `active/expected ≥ threshold` over exact rational
division; the comparison is `≥`, so a ratio exactly equal to the
threshold yields healthy. -/
theorem C7_health (th : ℚ) (areas : List Area)
    (m : List (String × Bool)) (a : Area) (wm : WM) (tl : List WM)
    (hnd : (areas.map Area.name).Nodup) (ha : a ∈ areas)
    (hwm : a.worker_managers = wm :: tl)
    (hne : wm.expected_workers ≠ 0)
    (hok : deriveAreas th areas = .ok m) :
    lookupA m a.name = some (healthOf th wm) ∧
    (healthOf th wm = true ↔
      (wm.active_workers : ℚ) / (wm.expected_workers : ℚ) ≥ th) := by
  refine ⟨deriveGo_lookup_head th areas [] m a wm tl hnd ha hwm hne hok,
    ?_⟩
  simp [healthOf]

/-- Witness for C7 at the exact boundary: 1 active of 2 expected with
threshold 1/2 is healthy. -/
theorem C7_health_witness :
    lookupA [("a", true)] "a" = some true ∧
    deriveAreas ((1 : ℚ) / 2) [⟨"a", [⟨1, 2⟩]⟩] = .ok [("a", true)] := by
  have hh : healthOf ((1 : ℚ) / 2) ⟨1, 2⟩ = true := by
    simp only [healthOf, ge_iff_le, decide_eq_true_eq]
    norm_num
  have hd := deriveAreas_single_ok ((1 : ℚ) / 2) "a" 1 2 (by decide)
  rw [hh] at hd
  have h := C7_health ((1 : ℚ) / 2) [⟨"a", [⟨1, 2⟩]⟩] [("a", true)]
    ⟨"a", [⟨1, 2⟩]⟩ ⟨1, 2⟩ [] (by decide) (by decide) rfl (by decide) hd
  rw [hh] at h
  exact ⟨h.1, hd⟩

/-! ### Claim C8 -/

/-- C8: an area whose heading worker-pool report has
`expected_workers = 0` (area names distinct in the response) is absent
from the derived map: its name is not a key at all, neither healthy nor
unhealthy. -/
theorem C8_excluded (th : ℚ) (areas : List Area)
    (m : List (String × Bool)) (a : Area) (wm : WM) (tl : List WM)
    (hnd : (areas.map Area.name).Nodup) (ha : a ∈ areas)
    (hwm : a.worker_managers = wm :: tl)
    (hz : wm.expected_workers = 0)
    (hok : deriveAreas th areas = .ok m) :
    lookupA m a.name = none ∧ a.name ∉ keysOf m := by
  have h := deriveGo_lookup_zero th areas [] m a wm tl hnd ha hwm hz hok rfl
  exact ⟨h, lookupA_eq_none.mp h⟩

/-- Witness for C8: the zero-expected area `"a"` is absent from the
derived map while its sibling `"b"` produced the only entry. -/
theorem C8_excluded_witness :
    lookupA [("b", healthOf ((1 : ℚ) / 2) ⟨1, 1⟩)] "a" = none ∧
    "a" ∉ keysOf [("b", healthOf ((1 : ℚ) / 2) ⟨1, 1⟩)] := by
  have hd : deriveAreas ((1 : ℚ) / 2)
      [⟨"a", [⟨3, 0⟩]⟩, ⟨"b", [⟨1, 1⟩]⟩] =
      .ok [("b", healthOf ((1 : ℚ) / 2) ⟨1, 1⟩)] := by
    simp [deriveAreas, deriveGo, upsert]
  exact C8_excluded ((1 : ℚ) / 2) [⟨"a", [⟨3, 0⟩]⟩, ⟨"b", [⟨1, 1⟩]⟩]
    [("b", healthOf ((1 : ℚ) / 2) ⟨1, 1⟩)] ⟨"a", [⟨3, 0⟩]⟩ ⟨3, 0⟩ []
    (by decide) (by decide) rfl rfl hd

/-! ### Claim C10 -/

/-- C10: the `backend_areas` comprehension indexes `worker_managers[0]`
without a guard: it succeeds when every area's list is non-empty, it
raises an IndexError when some area's list is empty, and that error is
outside the `try` protecting the fetch, so the whole cycle crashes. -/
theorem C10_unguarded :
    (∀ (th : ℚ) (areas : List Area),
      (∀ a ∈ areas, a.worker_managers ≠ []) →
      isOkE (deriveAreas th areas) = true) ∧
    (∀ (th : ℚ) (areas : List Area) (a : Area),
      a ∈ areas → a.worker_managers = [] →
      isOkE (deriveAreas th areas) = false) ∧
    (∀ (cfg : Config) (st : Sys) (resp : BackendResp) (a : Area)
      (oracle : String → Except String PingResp) (ord : List Nat),
      a ∈ resp.areas → a.worker_managers = [] →
      isCrashed (cycle cfg st (.ok resp) oracle ord) = true) := by
  refine ⟨?_, ?_, ?_⟩
  · intro th areas h
    rcases deriveGo_ok_of_nonempty th areas [] h with ⟨m, hm⟩
    show isOkE (deriveGo th [] areas) = true
    rw [hm]
    rfl
  · intro th areas a ha hwm
    rcases deriveGo_error_of_empty th areas [] a ha hwm with ⟨e, he⟩
    show isOkE (deriveGo th [] areas) = false
    rw [he]
    rfl
  · intro cfg st resp a oracle ord ha hwm
    rcases deriveGo_error_of_empty cfg.threshold resp.areas [] a ha hwm
      with ⟨e, he⟩
    unfold cycle
    dsimp only
    rw [show deriveAreas cfg.threshold resp.areas = .error e from he]
    rfl

/-- Witness for C10: a response whose only area reports no
worker-manager entries crashes the cycle. -/
theorem C10_unguarded_witness :
    isCrashed (cycle cfgW ⟨regW, []⟩ (.ok ⟨[⟨"a", []⟩]⟩) okOracle [])
      = true :=
  C10_unguarded.2.2 cfgW ⟨regW, []⟩ ⟨[⟨"a", []⟩]⟩ ⟨"a", []⟩ okOracle []
    (by decide) rfl

/-! ### Claim C2 -/

/-- C2 fails on the code (the failure handler is buggy): with 5 targets
of which 2 time out, (a) if a timed-out future completes first, the
handler evaluates `res.url` while `res` is still unbound, raising an
uncaught NameError out of `ping_monitors`; (b) even in the benign
completion order, the two logged failures name the URL of the *previous
successful* response (`res.url`), not the failed target's URL (tokens 1
and 3 are logged although tokens 2 and 4 failed). -/
theorem C2_ping_handler :
    ping_monitors "http://k" cacheW5 areasW5 timeoutOracle [1, 0, 2, 3, 4]
      = .error "NameError: name res is not defined" ∧
    ping_monitors "http://k" cacheW5 areasW5 timeoutOracle [0, 1, 2, 3, 4]
      = .ok
        ["Ping of URL http://k/api/push/1?status=up failed with timeout",
         "Ping of URL http://k/api/push/3?status=up failed with timeout"] := by
  constructor
  · rfl
  · rfl

/-! ### Claim C3 -/

/-- C3's consequence is false as stated: across two consecutive cycles
with an unchanged (empty) desired area set, the second cycle still
triggers a pass (`len(backend_areas) == 0`) and performs a
status-page save. -/
theorem C3_counterexample :
    (Option.bind
      (runOk (cycle cfgW ⟨regW, []⟩ (.ok respEmpty) okOracle []))
      (fun s1 =>
        Option.map (fun p => p.2.saved)
          (runOk (cycle cfgW s1.1 (.ok respEmpty) okOracle []))))
      = some true := by
  decide

/-- C3 (amended): a reconciliation pass is triggered exactly when the
sorted cached-name list differs from the sorted desired-name list or
the desired set is empty (equivalently, under equal sorted lists, when
the cache is empty); consequently, when the desired area set is
nonempty and its sorted name list equals the cache's, no pass runs —
in particular no create, delete, or status-page-save calls occur. -/
theorem C3_trigger (cfg : Config) (st : Sys)
    (areas : List (String × Bool)) :
    ((reconcileIfTriggered cfg st areas).2.passRan = true ↔
      (pySorted (keysOf st.cache) ≠ pySorted (keysOf areas) ∨
        keysOf st.cache = [])) ∧
    (pySorted (keysOf st.cache) = pySorted (keysOf areas) →
      areas ≠ [] →
      (reconcileIfTriggered cfg st areas).1 = st ∧
      (reconcileIfTriggered cfg st areas).2 = emptyTrace) := by
  have hlen : pySorted (keysOf st.cache) = pySorted (keysOf areas) →
      (areas.length = 0 ↔ keysOf st.cache = []) := by
    intro hs
    have h1 : (keysOf st.cache).length = (keysOf areas).length := by
      have h2 := congrArg List.length hs
      simpa [pySorted] using h2
    have h3 : (keysOf areas).length = areas.length :=
      List.length_map _ _
    constructor
    · intro hz
      refine List.length_eq_zero.mp ?_
      omega
    · intro hc
      have h4 : (keysOf st.cache).length = 0 := by rw [hc]; rfl
      omega
  by_cases hs : pySorted (keysOf st.cache) = pySorted (keysOf areas)
  · by_cases hz : areas.length = 0
    · have hpr : (reconcileIfTriggered cfg st areas).2.passRan = true := by
        unfold reconcileIfTriggered
        rw [if_pos (Or.inr hz)]
      refine ⟨?_, ?_⟩
      · rw [hpr]
        simp only [true_iff]
        exact Or.inr ((hlen hs).mp hz)
      · intro _ hne
        exact absurd (List.length_eq_zero.mp hz) hne
    · have hpr : reconcileIfTriggered cfg st areas = (st, emptyTrace) := by
        unfold reconcileIfTriggered
        rw [if_neg (by push_neg; exact ⟨hs, hz⟩)]
      refine ⟨?_, fun _ _ => ?_⟩
      · rw [hpr]
        constructor
        · intro h
          simp [emptyTrace] at h
        · rintro (h | h)
          · exact absurd hs h
          · exact absurd ((hlen hs).mpr h) hz
      · rw [hpr]
        exact ⟨rfl, rfl⟩
  · have hpr : (reconcileIfTriggered cfg st areas).2.passRan = true := by
      unfold reconcileIfTriggered
      rw [if_pos (Or.inl hs)]
    refine ⟨?_, fun hs2 _ => absurd hs2 hs⟩
    rw [hpr]
    simp only [true_iff]
    exact Or.inl hs

/-- Witness for C3 (amended): one cached monitor `"a"`, desired set
`{"a"}` — no pass runs, the cycle state and trace are untouched. -/
theorem C3_trigger_witness :
    (reconcileIfTriggered cfgW ⟨regW, [("a", ⟨1, "a", 7⟩)]⟩
      [("a", true)]).1 = ⟨regW, [("a", ⟨1, "a", 7⟩)]⟩ ∧
    (reconcileIfTriggered cfgW ⟨regW, [("a", ⟨1, "a", 7⟩)]⟩
      [("a", true)]).2 = emptyTrace :=
  (C3_trigger cfgW ⟨regW, [("a", ⟨1, "a", 7⟩)]⟩ [("a", true)]).2
    (by decide) (by decide)

/-! ### Claim C4 -/

/-- C4 is false as stated: not every error in a cycle is caught. With a
healthy registry and the single lowercase area `"abc"`, the pass
completes, the cache ends empty (title-case churn), and the ping
dispatch then raises an uncaught KeyError looking up `"abc"` —
the cycle crashes, terminating the process. -/
theorem C4_counterexample :
    cycle cfgW ⟨regW, []⟩ (.ok ⟨[⟨"abc", [⟨5, 5⟩]⟩]⟩) okOracle [0]
      = .crashed "KeyError: abc" := by
  decide

/-- C4 (amended): backend-fetch errors are caught (the cycle backs off
and the state is kept), and reconciliation errors are caught (a cycle
whose derivation and ping dispatch succeed never crashes, whatever the
pass did); but errors in the area-map derivation or in the ping
dispatch itself are not caught and terminate the process. -/
theorem C4_amended :
    (∀ (cfg : Config) (st : Sys) (e : String)
      (oracle : String → Except String PingResp) (ord : List Nat),
      cycle cfg st (.error e) oracle ord = .backoff st) ∧
    (∀ (cfg : Config) (st : Sys) (resp : BackendResp)
      (areas : List (String × Bool))
      (oracle : String → Except String PingResp) (ord : List Nat),
      deriveAreas cfg.threshold resp.areas = .ok areas →
      isOkE (ping_monitors cfg.url
        (reconcileIfTriggered cfg st areas).1.cache areas oracle ord)
        = true →
      isCrashed (cycle cfg st (.ok resp) oracle ord) = false) := by
  constructor
  · intro cfg st e oracle ord
    rfl
  · intro cfg st resp areas oracle ord hd hp
    unfold cycle
    dsimp only
    rw [hd]
    dsimp only
    cases hping : ping_monitors cfg.url
        (reconcileIfTriggered cfg st areas).1.cache areas oracle ord with
    | error e =>
      rw [hping] at hp
      simp [isOkE] at hp
    | ok logs =>
      rfl

/-- Witness for C4 (amended): with the cache already matching the
single healthy area `"a"`, the cycle completes without crashing. -/
theorem C4_amended_witness :
    isCrashed (cycle cfgW ⟨regW, [("a", ⟨1, "a", 7⟩)]⟩
      (.ok ⟨[⟨"a", [⟨1, 1⟩]⟩]⟩) okOracle [0]) = false := by
  have hd := deriveAreas_single_ok cfgW.threshold "a" 1 1 (by decide)
  exact C4_amended.2 cfgW ⟨regW, [("a", ⟨1, "a", 7⟩)]⟩
    ⟨[⟨"a", [⟨1, 1⟩]⟩]⟩ [("a", healthOf cfgW.threshold ⟨1, 1⟩)]
    okOracle [0] hd (by rfl)

/-! ### Claim C5 -/

theorem createLoop_cache_preserves (tid : Nat) :
    ∀ (reg : Registry) (c : Cache) (ds : List String),
      ∀ p ∈ (createLoop tid reg c ds).cache, p ∈ c ∨ p.2.name = p.1
  | _, _, [], _, hp => Or.inl hp
  | reg, c, d :: ds, p, hp => by
    by_cases hd : d ∈ keysOf c
    · rw [createLoop, if_pos hd] at hp
      exact createLoop_cache_preserves tid reg c ds p hp
    · rw [createLoop, if_neg hd] at hp
      cases hadd : add_monitor reg d tid with
      | mk reg2 res =>
        rw [hadd] at hp
        cases res with
        | ok rec =>
          dsimp only at hp
          rcases createLoop_cache_preserves tid reg2
              (upsert c rec.name rec) ds p hp with h | h
          · rcases mem_upsert_elim h with h2 | h2
            · exact Or.inl h2
            · right; rw [h2]
          · exact Or.inr h
        | error e =>
          dsimp only at hp
          exact Or.inl hp

theorem createLoop_nodup (tid : Nat) :
    ∀ (reg : Registry) (c : Cache) (ds : List String),
      (keysOf c).Nodup → (keysOf (createLoop tid reg c ds).cache).Nodup
  | _, _, [], h => h
  | reg, c, d :: ds, h => by
    by_cases hd : d ∈ keysOf c
    · rw [createLoop, if_pos hd]
      exact createLoop_nodup tid reg c ds h
    · rw [createLoop, if_neg hd]
      cases hadd : add_monitor reg d tid with
      | mk reg2 res =>
        cases res with
        | ok rec =>
          dsimp only
          exact createLoop_nodup tid reg2 (upsert c rec.name rec) ds
            (nodup_keysOf_upsert _ _ h)
        | error e =>
          dsimp only
          exact h

/-- C5: every pass that completes without error saves a status-page
document that omits the `incident` and `maintenanceList` fields, and in
which every row of the configured group lists exactly the current cache
— its entry list is literally the sorted entry list of the cache, its
entry names are a permutation of the cache keys, duplicate-free, and
the list is sorted by the `polish_sort_key` collation. -/
theorem C5_statuspage (cfg : Config) (reg : Registry) (c : Cache)
    (desired : List String)
    (hcwf : ∀ p ∈ c, p.2.name = p.1)
    (hnd : (keysOf c).Nodup)
    (hok : (reconcile cfg reg c desired).err = none) :
    ∃ doc,
      (reconcile cfg reg c desired).registry.lastSaved = some doc ∧
      doc.incident = none ∧ doc.maintenanceList = none ∧
      ∀ row ∈ doc.publicGroupList, row.name = cfg.group →
        row.monitorList =
          sortEntries (entriesOf (reconcile cfg reg c desired).cache) ∧
        (row.monitorList.map Entry.name).Perm
          (keysOf (reconcile cfg reg c desired).cache) ∧
        (row.monitorList.map Entry.name).Nodup ∧
        List.Sorted entryLE row.monitorList := by
  cases hsess : reg.sessionOk with
  | false =>
    exfalso
    unfold reconcile at hok
    rw [hsess] at hok
    simp at hok
  | true =>
    cases htid : lookupA (fetch_tags reg) cfg.tag_name with
    | none =>
      exfalso
      unfold reconcile at hok
      rw [htid] at hok
      simp [hsess] at hok
    | some tid =>
      have hre := reconcile_eq_body cfg reg c desired tid hsess htid
      cases hco :
          (createLoop tid reg (rebuild tid reg.monitors c) desired).err with
      | some e =>
        exfalso
        rw [hre] at hok
        simp only [reconcileBody] at hok
        rw [hco] at hok
        simp at hok
      | none =>
        cases hsp : statusPageStep cfg
            (removePhase
              (createLoop tid reg (rebuild tid reg.monitors c)
                desired).registry
              (createLoop tid reg (rebuild tid reg.monitors c)
                desired).cache desired).registry
            (removePhase
              (createLoop tid reg (rebuild tid reg.monitors c)
                desired).registry
              (createLoop tid reg (rebuild tid reg.monitors c)
                desired).cache desired).cache with
        | error e =>
          exfalso
          rw [hre] at hok
          simp only [reconcileBody] at hok
          rw [hco, hsp] at hok
          simp at hok
        | ok reg4 =>
          have hbody := reconcileBody_eq cfg reg c desired tid reg4 hco hsp
          rw [hre.trans hbody]
          dsimp only
          have hwfc : ∀ p ∈ (removePhase
              (createLoop tid reg (rebuild tid reg.monitors c)
                desired).registry
              (createLoop tid reg (rebuild tid reg.monitors c)
                desired).cache desired).cache, p.2.name = p.1 := by
            intro p hp
            have hp2 := ((removePhase_cache_mem _ _ _ p).mp hp).1
            rcases createLoop_cache_preserves tid reg
                (rebuild tid reg.monitors c) desired p hp2 with h | h
            · exact rebuild_cacheWF tid reg.monitors c hcwf p h
            · exact h
          have hndc : (keysOf (removePhase
              (createLoop tid reg (rebuild tid reg.monitors c)
                desired).registry
              (createLoop tid reg (rebuild tid reg.monitors c)
                desired).cache desired).cache).Nodup :=
            removePhase_nodup _ _ _
              (createLoop_nodup tid reg (rebuild tid reg.monitors c)
                desired (rebuild_nodup tid reg.monitors c hnd))
          have hpage := statusPageStep_spec cfg _ _ reg4 hsp
          rcases hpage.2.2.2 with ⟨doc, hd1, hd2, hd3, hd4⟩
          refine ⟨doc, hd1, hd2, hd3, ?_⟩
          intro row hrow hname
          rw [hd4] at hrow
          rcases List.mem_map.mp hrow with ⟨orig, horig, heq⟩
          have hperm : ((sortEntries (entriesOf (removePhase
              (createLoop tid reg (rebuild tid reg.monitors c)
                desired).registry
              (createLoop tid reg (rebuild tid reg.monitors c)
                desired).cache desired).cache)).map Entry.name).Perm
              (keysOf (removePhase
                (createLoop tid reg (rebuild tid reg.monitors c)
                  desired).registry
                (createLoop tid reg (rebuild tid reg.monitors c)
                  desired).cache desired).cache) := by
            have h1 := List.perm_insertionSort entryLE
              (entriesOf (removePhase
                (createLoop tid reg (rebuild tid reg.monitors c)
                  desired).registry
                (createLoop tid reg (rebuild tid reg.monitors c)
                  desired).cache desired).cache)
            have h2 := h1.map Entry.name
            have h3 : ((entriesOf (removePhase
                (createLoop tid reg (rebuild tid reg.monitors c)
                  desired).registry
                (createLoop tid reg (rebuild tid reg.monitors c)
                  desired).cache desired).cache)).map Entry.name =
                keysOf (removePhase
                  (createLoop tid reg (rebuild tid reg.monitors c)
                    desired).registry
                  (createLoop tid reg (rebuild tid reg.monitors c)
                    desired).cache desired).cache := by
              simp only [entriesOf, keysOf, List.map_map]
              exact List.map_congr_left (fun p hp => hwfc p hp)
            rw [h3] at h2
            exact h2
          by_cases hog : orig.name = cfg.group
          · rw [if_pos hog] at heq
            rw [← heq]
            exact ⟨rfl, hperm, hperm.nodup_iff.mpr hndc,
              List.sorted_insertionSort entryLE _⟩
          · rw [if_neg hog] at heq
            rw [← heq] at hname
            exact absurd hname hog

/-- Witness for C5: the saved document for the pass on desired set
`{"Abc"}` omits both transient fields. -/
theorem C5_statuspage_witness :
    ((reconcile cfgW regW [] ["Abc"]).registry.lastSaved.map
      PageDoc.incident) = some none ∧
    ((reconcile cfgW regW [] ["Abc"]).registry.lastSaved.map
      PageDoc.maintenanceList) = some none := by
  obtain ⟨doc, h1, h2, h3, _⟩ := C5_statuspage cfgW regW [] ["Abc"]
    (by decide) (by decide) (by decide)
  rw [h1]
  simp [h2, h3]

end Ursaring
